import Mathlib

/-!
Shallow embedding of `tools/vis_gradcam.py` (SegNBDT visualization tooling)
and proofs about its pixel-selection, filename, crop, overlap and
saliency-bounds logic.

Python integers are modelled as `Int` (`Nat` where the source only ever
produces non-negative values), saliency values as `ℚ`, Python lists as
`List`, Python dicts as association lists `List (κ × ν)` whose key lists
are `Nodup` (a dict cannot hold a duplicate key).  Fallible code returns
`Except PyError`.
-/

set_option autoImplicit false

namespace VisGradcam


/-- The kinds of exception the modelled script can raise. -/
inductive PyError where
  | assertionError
  | typeError
  | valueError
  | keyError
  deriving DecidableEq, Repr

/-- Length of Python `range(start, stop, step)` for `step ≠ 0`:
`max 0 (ceil ((stop - start) / step))`. -/
def pyRangeLen (start stop step : Int) : Nat :=
  if 0 < step then ((stop - start + step - 1).fdiv step).toNat
  else ((start - stop + (-step) - 1).fdiv (-step)).toNat

/-- Python `range(start, stop, step)` as a list, for `step ≠ 0`. -/
def pyRange (start stop step : Int) : List Int :=
  (List.range (pyRangeLen start stop step)).map (fun k => start + step * (k : Int))

/-- Evaluate `lst or range(*rng)`: the effective coordinate list of one axis.
An empty explicit list is falsy in Python, so it falls through to the range;
a missing range then blows up (`range(*None)` is a `TypeError`), and a zero
step is a `ValueError`. -/
def resolveAxis (lst : List Int) (rng : Option (Int × Int × Int)) :
    Except PyError (List Int) :=
  if lst.isEmpty then
    match rng with
    | some (a, b, s) => if s = 0 then .error .valueError else .ok (pyRange a b s)
    | none => .error .typeError
  else .ok lst

/-- Function `get_pixels` from `tools/vis_gradcam.py` (lines 103-114):
asserts that at most one of list / range is supplied per axis, resolves each
axis, then either takes the cartesian product
`sum([[(i, j) for i in pixel_is] for j in pixel_js], [])` or
`list(zip(pixel_is, pixel_js))`. -/
def get_pixels (pixel_i pixel_j : List Int)
    (pixel_i_range pixel_j_range : Option (Int × Int × Int))
    (cartesian_product : Bool) : Except PyError (List (Int × Int)) :=
  if ¬ pixel_i.isEmpty ∧ pixel_i_range.isSome then .error .assertionError
  else
    match resolveAxis pixel_i pixel_i_range with
    | .error e => .error e
    | .ok pixel_is =>
      if ¬ pixel_j.isEmpty ∧ pixel_j_range.isSome then .error .assertionError
      else
        match resolveAxis pixel_j pixel_j_range with
        | .error e => .error e
        | .ok pixel_js =>
          if cartesian_product then
            .ok ((pixel_js.map (fun j => pixel_is.map (fun i => (i, j)))).flatten)
          else
            .ok (pixel_is.zip pixel_js)

/-- A valid specification of one axis: an explicit non-empty list and no
range, or no list and a range with a non-zero step. -/
def ValidAxis (lst : List Int) (rng : Option (Int × Int × Int)) : Prop :=
  (lst ≠ [] ∧ rng = none) ∨
    (lst = [] ∧ ∃ a b s, rng = some (a, b, s) ∧ s ≠ 0)

/-- The effective coordinate list of a validly specified axis. -/
def effAxis (lst : List Int) (rng : Option (Int × Int × Int)) : List Int :=
  if lst.isEmpty then
    match rng with
    | some (a, b, s) => pyRange a b s
    | none => []
  else lst

/-- Python list slice `l[a:b]` for non-negative bounds `a`, `b` (the only
ones the modelled callers can produce): elements at indices
`a ≤ k < min b l.length`. -/
def pySlice {α : Type} (a b : Int) (l : List α) : List α :=
  (l.take b.toNat).drop a.toNat

/-- Function `crop` from `tools/vis_gradcam.py` (lines 203-209), the
`is_tensor=False` path on a 2-D image given as a list of rows:
`half = size // 2`, rows `max(i - half, 0) : i + half`, columns
`max(j - half, 0) : j + half`. -/
def crop {α : Type} (i j size : Int) (image : List (List α)) : List (List α) :=
  let half := size.fdiv 2
  (pySlice (max (i - half) 0) (i + half) image).map
    (fun row => pySlice (max (j - half) 0) (j + half) row)

/-- Smallest element of a non-empty list of saliency values
(`tensor.min()`); `0` on the empty list, which the script never produces. -/
def listMin : List ℚ → ℚ
  | [] => 0
  | x :: xs => xs.foldl min x

/-- Largest element (`tensor.max()`). -/
def listMax : List ℚ → ℚ
  | [] => 0
  | x :: xs => xs.foldl max x

/-- One saliency-bounds update, `tools/vis_gradcam.py` lines 327-328:
`maximum = max(float(gradcam_region.max()), maximum)` and
`minimum = min(float(gradcam_region.min()), minimum)`, on the
(minimum, maximum) pair. -/
def updateBounds (b : ℚ × ℚ) (region : List ℚ) : ℚ × ℚ :=
  (min (listMin region) b.1, max (listMax region) b.2)

/-- The bounds state across a run, `run` in `tools/vis_gradcam.py`: one
entry of `images` holds the saliency regions generated while processing
one image index; at the start of each image the pair is reassigned
`maximum, minimum = -1000, 0` (line 388) and every region then widens it
(lines 327-328).  Returns the final (minimum, maximum) pair of each image;
`st` is the pair left over from the previous image. -/
def runBounds : (ℚ × ℚ) → List (List (List ℚ)) → List (ℚ × ℚ)
  | _, [] => []
  | _, regions :: rest =>
    let st := regions.foldl updateBounds ((0 : ℚ), (-1000 : ℚ))
    st :: runBounds st rest

/-- The default priority key order of `generate_fname` (line 163):
`order=('image', 'pixel_i', 'pixel_j')`. -/
def fnameOrder : List String := ["image", "pixel_i", "pixel_j"]

/-- Render one part of the filename, `key-value`, for a key present in the dict. -/
def fnamePart (kwargs : List (String × String)) (key : String) : Option String :=
  (kwargs.lookup key).map (fun v => key ++ "-" ++ v)

/-- The keys of `kwargs` left over after the priority keys are popped,
in ascending order (`for key in sorted(kwargs)`). -/
def fnameRestKeys (kwargs : List (String × String)) : List String :=
  List.insertionSort (fun a b : String => a ≤ b)
    ((kwargs.filter (fun e => ¬ fnameOrder.contains e.1)).map Prod.fst)

/-- Function `generate_fname` from `tools/vis_gradcam.py` (lines 163-172): render
each priority key present in `kwargs` as `key-value` (popping it), then the
remaining keys in ascending name order, and join everything with `-`.
`kwargs` models a Python dict as an association list with `Nodup` keys, the
values already rendered through `str`. -/
def generate_fname (kwargs : List (String × String)) : String :=
  String.intercalate "-" (fnameOrder.filterMap (fnamePart kwargs) ++
    (fnameRestKeys kwargs).filterMap (fnamePart kwargs))

/-- Modelled from the spec: `GradCAM.normalize` lives in `utils/gradcam.py`,
which is not among the sources here; per the spec it normalizes the
saliency map into `[0, 1]` using the per-call min and max:
`(x - min) / (max - min)` elementwise. -/
def normalize (g : List ℚ) : List ℚ :=
  g.map (fun x => (x - listMin g) / (listMax g - listMin g))

/-- Python `np.unique`: the distinct values of the label map, ascending. -/
def npUnique (l : List Int) : List Int :=
  List.insertionSort (fun a b : Int => a ≤ b) l.dedup

/-- The per-class value computed by `compute_overlap` (line 179):
`gradcam[selector].sum() / selector.sum()` where `selector = label == cls`,
label and saliency maps flattened to equal-length lists. -/
def classMass (label : List Int) (g : List ℚ) (cls : Int) : ℚ :=
  (((label.zip g).filter (fun e => e.1 = cls)).map Prod.snd).sum /
    (label.count cls : ℚ)

/-- Function `compute_overlap` from `tools/vis_gradcam.py` (lines 174-181):
normalize the saliency map, compute the per-class mass for every distinct
label value, then `cls_to_mass.pop(255)` — a `KeyError` when `255` is not a
key. -/
def compute_overlap (label : List Int) (gradcam : List ℚ) :
    Except PyError (List (Int × ℚ)) :=
  let g := normalize gradcam
  let m := (npUnique label).map (fun cls => (cls, classMass label g cls))
  if (255 : Int) ∈ npUnique label then .ok (m.filter (fun e => e.1 ≠ 255))
  else .error .keyError

/-- The spec's words for C3: the arithmetic mean of the normalized saliency
values at the pixels labeled `cls` — their sum over their number. -/
def classMean (label : List Int) (g : List ℚ) (cls : Int) : ℚ :=
  (((label.zip g).filter (fun e => e.1 = cls)).map Prod.snd).sum /
    (((label.zip g).filter (fun e => e.1 = cls)).length : ℚ)

/-- Modelled from Python's `random` module (an external library): the
generator state after one step, here a 64-bit linear congruential
generator.  `get_random_pixels` relies only on the generator being a pure
function of the seed — which is exactly what `random.seed(seed)` followed
by draws gives — never on its distribution. -/
def lcgNext (s : Nat) : Nat :=
  (6364136223846793005 * s + 1442695040888963407) % 18446744073709551616

/-- Python `random.sample(population, k)`: `k` distinct elements, modelled by
repeatedly drawing an index below the remaining population size and
removing the drawn element; returns the sample and the next generator
state.  When `k` exceeds the population Python raises a `ValueError`; the
modelled calls never do that, and this model then stops early. -/
def sample {α : Type} : Nat → List α → Nat → List α × Nat
  | 0, _, st => ([], st)
  | k + 1, pop, st =>
    match pop.get? (lcgNext st % pop.length) with
    | some x =>
      (x :: (sample k (pop.eraseIdx (lcgNext st % pop.length)) (lcgNext st)).1,
        (sample k (pop.eraseIdx (lcgNext st % pop.length)) (lcgNext st)).2)
    | none => ([], lcgNext st)

/-- The spatial bin of a pixel: `(i // bin_size, j // bin_size)` with
Python floor division. -/
def binOf (p : Int × Int) (bin_size : Int) : Int × Int :=
  (p.1.fdiv bin_size, p.2.fdiv bin_size)

/-- Append `pixel` to `bin_to_pixels[bin]` on an insertion-ordered dict
modelled as an association list. -/
def insertBin : List ((Int × Int) × List (Int × Int)) → (Int × Int) →
    (Int × Int) → List ((Int × Int) × List (Int × Int))
  | [], b, p => [(b, [p])]
  | (c, l) :: rest, b, p =>
    if c = b then (c, l ++ [p]) :: rest else (c, l) :: insertBin rest b p

/-- The `defaultdict(lambda: [])` loop of `get_random_pixels`
(lines 214-216). -/
def buildBins (pixels : List (Int × Int)) (bin_size : Int) :
    List ((Int × Int) × List (Int × Int)) :=
  pixels.foldl (fun acc p => insertBin acc (binOf p bin_size) p) []

/-- Read `bin_to_pixels[bin]` for a key known to be present. -/
def lookupBin (m : List ((Int × Int) × List (Int × Int))) (b : Int × Int) :
    List (Int × Int) :=
  match m.lookup b with
  | some l => l
  | none => []

/-- Well-formedness of the bin map: distinct keys, and every entry holds a
non-empty list of candidate pixels that all fall in the entry's bin. -/
def BinsWF (bin_size : Int) (cand : List (Int × Int))
    (m : List ((Int × Int) × List (Int × Int))) : Prop :=
  (m.map Prod.fst).Nodup ∧
    ∀ e ∈ m, e.2 ≠ [] ∧ ∀ p ∈ e.2, p ∈ cand ∧ binOf p bin_size = e.1

/-- The final loop of `get_random_pixels` (lines 224-227): for each chosen
bin draw `indices = random.sample(range(len(pixels_per_bin)), 1)` and take
`pixels_per_bin[indices[0]]`, threading the generator state.  (An empty bin
would make Python raise a `ValueError`; bins built from the candidate list
are never empty, and this model then skips the bin.) -/
def pickOnePerBin : List (List (Int × Int)) → Nat → List (Int × Int) × Nat
  | [], st => ([], st)
  | l :: ls, st =>
    match l.get? ((sample 1 (List.range l.length) st).1.headD 0) with
    | some x =>
      (x :: (pickOnePerBin ls (sample 1 (List.range l.length) st).2).1,
        (pickOnePerBin ls (sample 1 (List.range l.length) st).2).2)
    | none => pickOnePerBin ls (sample 1 (List.range l.length) st).2

/-- Function `get_random_pixels` from `tools/vis_gradcam.py` (lines 211-228): seed
the generator (`random.seed(seed)`), bucket the candidate pixels into
spatial bins, take every bin when `n >= len(bin_to_pixels)` and a random
sample of `n` bins otherwise, then pick one random pixel per chosen bin. -/
def get_random_pixels (n : Nat) (pixels : List (Int × Int)) (bin_size : Int)
    (seed : Nat) : List (Int × Int) :=
  if n ≥ (buildBins pixels bin_size).length then
    (pickOnePerBin ((buildBins pixels bin_size).map Prod.snd) (lcgNext seed)).1
  else
    (pickOnePerBin
      (((sample n ((buildBins pixels bin_size).map Prod.fst) (lcgNext seed)).1).map
        (lookupBin (buildBins pixels bin_size)))
      (sample n ((buildBins pixels bin_size).map Prod.fst) (lcgNext seed)).2).1

theorem resolveAxis_of_valid {lst : List Int} {rng : Option (Int × Int × Int)}
    (h : ValidAxis lst rng) : resolveAxis lst rng = .ok (effAxis lst rng) := by
  rcases h with ⟨hne, hrng⟩ | ⟨hnil, a, b, s, hrng, hs⟩
  · have : ¬ lst.isEmpty := by simpa [List.isEmpty_iff] using hne
    simp [resolveAxis, effAxis, this]
  · subst hnil hrng
    simp [resolveAxis, effAxis, hs]

theorem not_both_of_valid {lst : List Int} {rng : Option (Int × Int × Int)}
    (h : ValidAxis lst rng) : ¬ (¬ lst = [] ∧ rng.isSome = true) := by
  rcases h with ⟨_, hrng⟩ | ⟨hnil, _, _, _, hrng, _⟩
  · subst hrng; simp
  · subst hnil hrng; simp

/-- The cartesian branch, for reuse in statements about order. -/
theorem get_pixels_cartesian_of_valid {pi pj : List Int}
    {ir jr : Option (Int × Int × Int)}
    (hi : ValidAxis pi ir) (hj : ValidAxis pj jr) :
    get_pixels pi pj ir jr true =
      .ok (((effAxis pj jr).map (fun j => (effAxis pi ir).map (fun i => (i, j)))).flatten) := by
  simp [get_pixels, resolveAxis_of_valid hi, resolveAxis_of_valid hj,
    not_both_of_valid hi, not_both_of_valid hj]

theorem get_pixels_zip_of_valid {pi pj : List Int}
    {ir jr : Option (Int × Int × Int)}
    (hi : ValidAxis pi ir) (hj : ValidAxis pj jr) :
    get_pixels pi pj ir jr false = .ok ((effAxis pi ir).zip (effAxis pj jr)) := by
  simp [get_pixels, resolveAxis_of_valid hi, resolveAxis_of_valid hj,
    not_both_of_valid hi, not_both_of_valid hj]

theorem cart_length (is js : List Int) :
    ((js.map (fun j => is.map (fun i => (i, j)))).flatten).length =
      is.length * js.length := by
  induction js with
  | nil => simp
  | cons j js ih => simp [ih, Nat.mul_succ, Nat.add_comm]

theorem cart_mem (is js : List Int) (p : Int × Int) :
    p ∈ (js.map (fun j => is.map (fun i => (i, j)))).flatten ↔
      p.1 ∈ is ∧ p.2 ∈ js := by
  rcases p with ⟨a, b⟩
  constructor
  · intro h
    rcases List.mem_flatten.mp h with ⟨l, hl, hmem⟩
    rcases List.mem_map.mp hl with ⟨j, hj, rfl⟩
    rcases List.mem_map.mp hmem with ⟨i, hi, hij⟩
    cases hij
    exact ⟨hi, hj⟩
  · rintro ⟨ha, hb⟩
    exact List.mem_flatten.mpr ⟨is.map (fun i => (i, b)),
      List.mem_map.mpr ⟨b, hb, rfl⟩, List.mem_map.mpr ⟨a, ha, rfl⟩⟩

theorem zip_get? {α β : Type} (l₁ : List α) (l₂ : List β) (k : Nat) :
    (l₁.zip l₂).get? k = match l₁.get? k, l₂.get? k with
      | some a, some b => some (a, b)
      | _, _ => none := by
  induction l₁ generalizing l₂ k with
  | nil => simp
  | cons a l₁ ih =>
    cases l₂ with
    | nil => simp
    | cons b l₂ =>
      cases k with
      | zero => simp
      | succ k => simpa using ih l₂ k

theorem cart_get? (is js : List Int) (q r : Nat)
    (hr : r < is.length) (hq : q < js.length) :
    ((js.map (fun j => is.map (fun i => (i, j)))).flatten).get? (q * is.length + r) =
      some (is.getD r 0, js.getD q 0) := by
  induction js generalizing q with
  | nil => simp at hq
  | cons j js ih =>
    cases q with
    | zero =>
      have hr' : r < (is.map (fun i => (i, j))).length := by simpa using hr
      rw [List.map_cons, List.flatten_cons, Nat.zero_mul, Nat.zero_add,
        List.get?_append hr', List.get?_eq_get hr']
      simp [List.getD_eq_getElem?_getD, List.getElem?_eq_getElem hr]
    | succ q =>
      have hq' : q < js.length := Nat.lt_of_succ_lt_succ hq
      have hlen : (is.map (fun i => (i, j))).length ≤ (q + 1) * is.length + r := by
        simp [Nat.succ_mul]
        omega
      rw [List.map_cons, List.flatten_cons, List.get?_append_right hlen]
      have harith : (q + 1) * is.length + r - (is.map (fun i => (i, j))).length =
          q * is.length + r := by
        simp [Nat.succ_mul]
        omega
      rw [harith, ih q hq']
      simp

/-- C1: for valid axis specifications, `get_pixels` with
`cartesian_product = true` returns exactly `|rows| * |cols|` pairs, one for
every combination of a row value and a column value, and with
`cartesian_product = false` exactly `min |rows| |cols|` pairs, the `k`-th
being the `k`-th row value paired with the `k`-th column value. -/
theorem get_pixels_counts {pi pj : List Int} {ir jr : Option (Int × Int × Int)}
    (hi : ValidAxis pi ir) (hj : ValidAxis pj jr) :
    (∃ l, get_pixels pi pj ir jr true = .ok l ∧
      l.length = (effAxis pi ir).length * (effAxis pj jr).length ∧
      ∀ p : Int × Int, p ∈ l ↔ p.1 ∈ effAxis pi ir ∧ p.2 ∈ effAxis pj jr) ∧
    (∃ l, get_pixels pi pj ir jr false = .ok l ∧
      l.length = min (effAxis pi ir).length (effAxis pj jr).length ∧
      ∀ k : Nat, k < l.length →
        l.get? k = some ((effAxis pi ir).getD k 0, (effAxis pj jr).getD k 0)) := by
  constructor
  · exact ⟨_, get_pixels_cartesian_of_valid hi hj, cart_length _ _, cart_mem _ _⟩
  · refine ⟨_, get_pixels_zip_of_valid hi hj, by exact List.length_zip _ _, ?_⟩
    intro k hk
    rw [List.length_zip] at hk
    have hik : k < (effAxis pi ir).length := lt_of_lt_of_le hk (min_le_left _ _)
    have hjk : k < (effAxis pj jr).length := lt_of_lt_of_le hk (min_le_right _ _)
    rw [zip_get?, List.get?_eq_get hik, List.get?_eq_get hjk]
    simp [List.getD_eq_getElem?_getD, List.getElem?_eq_getElem hik,
      List.getElem?_eq_getElem hjk]

/-- Witness for C1: rows `[1, 2]` given explicitly, columns given as
`range(0, 10, 4)`. -/
theorem get_pixels_counts_witness :
    ValidAxis [1, 2] none ∧ ValidAxis [] (some (0, 10, 4)) ∧
    ((∃ l, get_pixels [1, 2] [] none (some (0, 10, 4)) true = .ok l ∧
      l.length = (effAxis [1, 2] none).length *
        (effAxis [] (some (0, 10, 4))).length ∧
      ∀ p : Int × Int, p ∈ l ↔
        p.1 ∈ effAxis [1, 2] none ∧ p.2 ∈ effAxis [] (some (0, 10, 4))) ∧
    (∃ l, get_pixels [1, 2] [] none (some (0, 10, 4)) false = .ok l ∧
      l.length = min (effAxis [1, 2] none).length
        (effAxis [] (some (0, 10, 4))).length ∧
      ∀ k : Nat, k < l.length →
        l.get? k = some ((effAxis [1, 2] none).getD k 0,
          (effAxis [] (some (0, 10, 4))).getD k 0))) :=
  have h1 : ValidAxis [1, 2] none := Or.inl ⟨by decide, rfl⟩
  have h2 : ValidAxis [] (some (0, 10, 4)) := Or.inr ⟨rfl, 0, 10, 4, rfl, by decide⟩
  ⟨h1, h2, get_pixels_counts h1 h2⟩

/-- C10: in cartesian mode the pairs come out column-major: the element at
position `q * |rows| + r` is `(rows[r], cols[q])`. -/
theorem get_pixels_cartesian_order {pi pj : List Int}
    {ir jr : Option (Int × Int × Int)}
    (hi : ValidAxis pi ir) (hj : ValidAxis pj jr) (q r : Nat)
    (hr : r < (effAxis pi ir).length) (hq : q < (effAxis pj jr).length) :
    ∃ l, get_pixels pi pj ir jr true = .ok l ∧
      l.get? (q * (effAxis pi ir).length + r) =
        some ((effAxis pi ir).getD r 0, (effAxis pj jr).getD q 0) :=
  ⟨_, get_pixels_cartesian_of_valid hi hj, cart_get? _ _ q r hr hq⟩

/-- Witness for C10: rows `[7, 8]`, columns `[3, 4]`; position
`1 * 2 + 0` holds `(7, 4)`. -/
theorem get_pixels_cartesian_order_witness :
    ValidAxis [7, 8] none ∧ ValidAxis [3, 4] none ∧
    (∃ l, get_pixels [7, 8] [3, 4] none none true = .ok l ∧
      l.get? (1 * (effAxis [7, 8] none).length + 0) =
        some ((effAxis [7, 8] none).getD 0 0, (effAxis [3, 4] none).getD 1 0)) :=
  have h1 : ValidAxis [7, 8] none := Or.inl ⟨by decide, rfl⟩
  have h2 : ValidAxis [3, 4] none := Or.inl ⟨by decide, rfl⟩
  ⟨h1, h2, get_pixels_cartesian_order h1 h2 1 0 (by decide) (by decide)⟩

/-- Counterexample for C5: both an explicit list (`[5]`) and a range are
supplied for the `j` axis while the `i` axis has no specification at all, so
Python evaluates `range(*None)` for the `i` axis and dies with a `TypeError`
before it ever reaches the `j`-axis assertion: the failure is not an
assertion error. -/
theorem get_pixels_conflict_not_assertion :
    get_pixels [] [5] none (some (0, 10, 1)) false = .error .typeError ∧
    PyError.typeError ≠ PyError.assertionError := ⟨rfl, by decide⟩

/-- C5 (amended): whenever both an explicit list and a range are supplied
for the same axis, `get_pixels` raises some error and never returns a pixel
set; the error is the assertion error whenever the conflict is on the `i`
axis, or the conflict is on the `j` axis and the `i` axis was validly
specified.  (When the conflict is only on the `j` axis and the `i` axis
itself fails to resolve, that earlier `TypeError`/`ValueError` wins.) -/
theorem get_pixels_conflict_errors (pi pj : List Int)
    (ir jr : Option (Int × Int × Int)) (c : Bool) :
    (pi ≠ [] ∧ ir.isSome → get_pixels pi pj ir jr c = .error .assertionError) ∧
    (pj ≠ [] ∧ jr.isSome → (∃ e, get_pixels pi pj ir jr c = .error e) ∧
      ∀ l, get_pixels pi pj ir jr c ≠ .ok l) ∧
    (pj ≠ [] ∧ jr.isSome → ValidAxis pi ir →
      get_pixels pi pj ir jr c = .error .assertionError) := by
  refine ⟨?_, ?_, ?_⟩
  · rintro ⟨hne, hsome⟩
    have : ¬ pi.isEmpty := by simpa [List.isEmpty_iff] using hne
    simp [get_pixels, this, hsome]
  · rintro ⟨hne, hsome⟩
    by_cases hfirst : ¬ pi = [] ∧ ir.isSome = true
    · constructor
      · exact ⟨.assertionError, by simp [get_pixels, hfirst.1, hfirst.2]⟩
      · intro l
        simp [get_pixels, hfirst.1, hfirst.2]
    · rcases hres : resolveAxis pi ir with e | v
      · constructor
        · exact ⟨e, by simp [get_pixels, hfirst, hres]⟩
        · intro l
          simp [get_pixels, hfirst, hres]
      · constructor
        · exact ⟨.assertionError, by simp [get_pixels, hfirst, hres, hne, hsome]⟩
        · intro l
          simp [get_pixels, hfirst, hres, hne, hsome]
  · rintro ⟨hne, hsome⟩ hvalid
    simp [get_pixels, not_both_of_valid hvalid, resolveAxis_of_valid hvalid,
      hne, hsome]

/-- Witness for C5 (amended): a conflict on the `i` axis yields the
assertion error, and a conflict on the `j` axis with a valid `i` axis does
too. -/
theorem get_pixels_conflict_errors_witness :
    (([1] : List Int) ≠ [] ∧ (some ((0 : Int), (5 : Int), (1 : Int))).isSome) ∧
    get_pixels [1] [2] (some (0, 5, 1)) none false = .error .assertionError ∧
    (([2] : List Int) ≠ [] ∧ (some ((0 : Int), (5 : Int), (1 : Int))).isSome) ∧
    ValidAxis [1] none ∧
    get_pixels [1] [2] none (some (0, 5, 1)) false = .error .assertionError := by
  refine ⟨⟨by decide, by decide⟩, ?_, ⟨by decide, by decide⟩,
    Or.inl ⟨by decide, rfl⟩, ?_⟩
  · exact (get_pixels_conflict_errors [1] [2] (some (0, 5, 1)) none false).1
      ⟨by decide, by decide⟩
  · exact (get_pixels_conflict_errors [1] [2] none (some (0, 5, 1)) false).2.2
      ⟨by decide, by decide⟩ (Or.inl ⟨by decide, rfl⟩)

theorem pySlice_get? {α : Type} (a b : Int) (l : List α) (k : Nat) :
    (pySlice a b l).get? k =
      if a.toNat + k < b.toNat then l.get? (a.toNat + k) else none := by
  unfold pySlice
  rw [List.get?_drop]
  by_cases h : a.toNat + k < b.toNat
  · rw [if_pos h]
    by_cases h' : a.toNat + k < l.length
    · rw [List.get?_take h]
    · have h1 : (l.take b.toNat).length ≤ a.toNat + k := by
        rw [List.length_take]; omega
      rw [List.get?_eq_none.mpr h1, List.get?_eq_none.mpr (by omega)]
  · rw [if_neg h]
    have h1 : (l.take b.toNat).length ≤ a.toNat + k := by
      rw [List.length_take]; omega
    rw [List.get?_eq_none.mpr h1]

theorem pySlice_length {α : Type} (a b : Int) (l : List α) :
    (pySlice a b l).length = min b.toNat l.length - a.toNat := by
  simp [pySlice, List.length_drop, List.length_take]

/-- C8: for crop size `s > 0` centered at a (non-negative) pixel `(i, j)`,
`crop` selects on the row axis the half-open window
`[max (i - s/2) 0, i + s/2)`: its length is
`min (i + s/2) H - max (i - s/2) 0` and its `k`-th row is row
`max (i - s/2) 0 + k` of the image (column-cropped); the low edge is
clamped at `0` but the high edge stays at `i + s/2` — in particular for
`i < s/2` the window starts at row `0` and still ends at `i + s/2`, so any
shortening on the high side comes from the image boundary alone. -/
theorem crop_window {α : Type} (s i j : Int) (image : List (List α))
    (hs : 0 < s) (hi : 0 ≤ i) :
    ((crop i j s image).length =
      min (i + s.fdiv 2).toNat image.length - (max (i - s.fdiv 2) 0).toNat) ∧
    (∀ k : Nat, (crop i j s image).get? k =
      if (max (i - s.fdiv 2) 0).toNat + k < (i + s.fdiv 2).toNat then
        (image.get? ((max (i - s.fdiv 2) 0).toNat + k)).map
          (fun row => pySlice (max (j - s.fdiv 2) 0) (j + s.fdiv 2) row)
      else none) ∧
    (i < s.fdiv 2 → (max (i - s.fdiv 2) 0).toNat = 0) := by
  refine ⟨?_, ?_, ?_⟩
  · simp [crop, pySlice_length, List.length_map]
  · intro k
    rw [crop, List.get?_map, pySlice_get?]
    by_cases h : (max (i - s.fdiv 2) 0).toNat + k < (i + s.fdiv 2).toNat
    · rw [if_pos h, if_pos h]
    · rw [if_neg h, if_neg h]; rfl
  · intro h
    have : max (i - s.fdiv 2) 0 = 0 := by omega
    rw [this]
    rfl

/-- Witness for C8: a 3-row image, crop size `4` centered at `(1, 5)`:
`1 < 4/2`, the row window is `[0, 3)`. -/
theorem crop_window_witness :
    (0 : Int) < 4 ∧ (0 : Int) ≤ 1 ∧
    (((crop 1 5 4 [[10, 11, 12], [20, 21, 22], [30, 31, 32]]).length =
      min ((1 : Int) + (4 : Int).fdiv 2).toNat
        [[10, 11, 12], [20, 21, 22], [30, 31, 32]].length -
        (max ((1 : Int) - (4 : Int).fdiv 2) 0).toNat) ∧
    (∀ k : Nat, (crop 1 5 4 [[10, 11, 12], [20, 21, 22], [30, 31, 32]]).get? k =
      if (max ((1 : Int) - (4 : Int).fdiv 2) 0).toNat + k <
          ((1 : Int) + (4 : Int).fdiv 2).toNat then
        ([[10, 11, 12], [20, 21, 22], [30, 31, 32]].get?
            ((max ((1 : Int) - (4 : Int).fdiv 2) 0).toNat + k)).map
          (fun row => pySlice (max ((5 : Int) - (4 : Int).fdiv 2) 0)
            ((5 : Int) + (4 : Int).fdiv 2) row)
      else none) ∧
    ((1 : Int) < (4 : Int).fdiv 2 →
      (max ((1 : Int) - (4 : Int).fdiv 2) 0).toNat = 0)) :=
  ⟨by decide, by decide,
    crop_window 4 1 5 [[10, 11, 12], [20, 21, 22], [30, 31, 32]]
      (by decide) (by decide)⟩

/-- C9: the saliency-bounds pair starts each image at
(minimum, maximum) = (0, -1000); every update can only decrease the
minimum and increase the maximum; and because the pair is reassigned at
each new image index, the bounds recorded for each image do not depend on
whatever state the previous image left behind. -/
theorem saliency_bounds_invariant :
    (∀ (st : ℚ × ℚ) (images : List (List (List ℚ))),
      runBounds st images =
        images.map (fun rs => rs.foldl updateBounds ((0 : ℚ), (-1000 : ℚ)))) ∧
    (∀ (b : ℚ × ℚ) (region : List ℚ),
      (updateBounds b region).1 ≤ b.1 ∧ b.2 ≤ (updateBounds b region).2) := by
  constructor
  · intro st images
    induction images generalizing st with
    | nil => rfl
    | cons regions rest ih => simp [runBounds, ih]
  · intro b region
    exact ⟨min_le_right _ _, le_max_right _ _⟩

theorem lookup_perm {l₁ l₂ : List (String × String)} (h : l₁.Perm l₂) :
    (l₁.map Prod.fst).Nodup → ∀ k, l₁.lookup k = l₂.lookup k := by
  induction h with
  | nil => exact fun _ _ => rfl
  | cons x h ih =>
    intro hnd k
    have hnd' : (List.map Prod.fst _).Nodup := (List.nodup_cons.mp hnd).2
    simp only [List.lookup]
    rw [ih hnd' k]
  | swap x y l =>
    intro hnd k
    have hxy : y.1 ≠ x.1 := by
      simp only [List.map_cons, List.nodup_cons, List.mem_cons] at hnd
      exact fun he => hnd.1 (Or.inl he)
    simp only [List.lookup]
    cases hy : k == y.1 <;> cases hx : k == x.1 <;> simp
    exact absurd ((eq_of_beq hy).symm.trans (eq_of_beq hx)) hxy
  | trans h₁ h₂ ih₁ ih₂ =>
    intro hnd k
    have hnd' : (List.map Prod.fst _).Nodup := ((h₁.map Prod.fst).nodup_iff).mp hnd
    rw [ih₁ hnd k, ih₂ hnd' k]

theorem fnameRestKeys_perm {l₁ l₂ : List (String × String)} (h : l₁.Perm l₂)
    (hnd : (l₁.map Prod.fst).Nodup) : fnameRestKeys l₁ = fnameRestKeys l₂ := by
  have hkeys : ((l₁.filter (fun e => ¬ fnameOrder.contains e.1)).map Prod.fst).Perm
      ((l₂.filter (fun e => ¬ fnameOrder.contains e.1)).map Prod.fst) :=
    (h.filter _).map _
  have hperm : (fnameRestKeys l₁).Perm (fnameRestKeys l₂) :=
    (List.perm_insertionSort _ _).trans
      (hkeys.trans (List.perm_insertionSort _ _).symm)
  exact List.eq_of_perm_of_sorted hperm
    (List.sorted_insertionSort _ _) (List.sorted_insertionSort _ _)

/-- C7: `generate_fname` renders the priority keys first in their fixed
order, then the remaining keys ascending, so its output does not depend on
the order in which the mapping's entries were inserted; and on
`{'pixel_j': 5, 'image': 2, 'pixel_i': 3}` it produces
`"image-2-pixel_i-3-pixel_j-5"`. -/
theorem generate_fname_order_stable :
    (∀ l₁ l₂ : List (String × String), l₁.Perm l₂ → (l₁.map Prod.fst).Nodup →
      generate_fname l₁ = generate_fname l₂) ∧
    generate_fname [("pixel_j", "5"), ("image", "2"), ("pixel_i", "3")] =
      "image-2-pixel_i-3-pixel_j-5" := by
  constructor
  · intro l₁ l₂ hperm hnd
    have hpart : ∀ k, fnamePart l₁ k = fnamePart l₂ k := fun k => by
      unfold fnamePart
      rw [lookup_perm hperm hnd k]
    unfold generate_fname
    rw [fnameRestKeys_perm hperm hnd,
      List.filterMap_congr (fun k _ => hpart k),
      List.filterMap_congr (fun k _ => hpart k)]
  · rfl

/-- Witness for C7: the example mapping in two insertion orders. -/
theorem generate_fname_order_stable_witness :
    ([("pixel_j", "5"), ("image", "2"), ("pixel_i", "3")] :
        List (String × String)).Perm
      [("image", "2"), ("pixel_i", "3"), ("pixel_j", "5")] ∧
    (([("pixel_j", "5"), ("image", "2"), ("pixel_i", "3")] :
        List (String × String)).map Prod.fst).Nodup ∧
    generate_fname [("pixel_j", "5"), ("image", "2"), ("pixel_i", "3")] =
      generate_fname [("image", "2"), ("pixel_i", "3"), ("pixel_j", "5")] :=
  have hperm : ([("pixel_j", "5"), ("image", "2"), ("pixel_i", "3")] :
      List (String × String)).Perm
        [("image", "2"), ("pixel_i", "3"), ("pixel_j", "5")] := by decide
  have hnd : (([("pixel_j", "5"), ("image", "2"), ("pixel_i", "3")] :
      List (String × String)).map Prod.fst).Nodup := by decide
  ⟨hperm, hnd, generate_fname_order_stable.1 _ _ hperm hnd⟩

theorem mem_npUnique {l : List Int} {c : Int} : c ∈ npUnique l ↔ c ∈ l := by
  unfold npUnique
  rw [(List.perm_insertionSort _ _).mem_iff]
  exact List.mem_dedup

theorem nodup_npUnique (l : List Int) : (npUnique l).Nodup :=
  ((List.perm_insertionSort _ _).nodup_iff).mpr l.nodup_dedup

theorem zip_filter_length_eq_count {label : List Int} {g : List ℚ}
    (hlen : label.length = g.length) (cls : Int) :
    ((label.zip g).filter (fun e => e.1 = cls)).length = label.count cls := by
  induction label generalizing g with
  | nil => simp
  | cons a label ih =>
    cases g with
    | nil => simp at hlen
    | cons x g =>
      have hlen' : label.length = g.length := by simpa using hlen
      by_cases ha : a = cls
      · subst ha
        simp [List.zip_cons_cons, List.filter_cons, List.count_cons, ih hlen']
      · simp [List.zip_cons_cons, List.filter_cons, List.count_cons, ha,
          ih hlen']

theorem classMass_eq_classMean {label : List Int} {g : List ℚ}
    (hlen : label.length = g.length) (cls : Int) :
    classMass label g cls = classMean label g cls := by
  unfold classMass classMean
  rw [zip_filter_length_eq_count hlen]

theorem lookup_overlap_map {ks : List Int} (f : Int → ℚ) (hnd : ks.Nodup)
    (c : Int) :
    ((ks.map (fun k => (k, f k))).filter (fun e => e.1 ≠ 255)).lookup c =
      if c ∈ ks ∧ c ≠ 255 then some (f c) else none := by
  induction ks with
  | nil => simp [List.lookup]
  | cons k ks ih =>
    have hk : k ∉ ks := (List.nodup_cons.mp hnd).1
    have hnd' : ks.Nodup := (List.nodup_cons.mp hnd).2
    rw [List.map_cons, List.filter_cons]
    by_cases hk255 : k = (255 : Int)
    · subst hk255
      rw [if_neg (by simp)]
      rw [ih hnd']
      by_cases hc : c = (255 : Int)
      · subst hc
        simp [hk]
      · simp [hc]
    · rw [if_pos (by simpa using hk255)]
      by_cases hck : c = k
      · subst hck
        rw [List.lookup_cons_self]
        simp [hk255]
      · have hbeq : (c == k) = false := by simpa using hck
        simp only [List.lookup, hbeq]
        rw [ih hnd']
        by_cases hc : c = (255 : Int) <;> simp [hc, hck]

/-- C3: when the label map (flattened, same length as the saliency map)
contains the ignore id 255, `compute_overlap` returns a mapping whose keys
are exactly the distinct class ids of the label map minus `{255}` and whose
value at each class id is the arithmetic mean of the normalized saliency
values at that class's pixels. -/
theorem compute_overlap_spec (label : List Int) (gradcam : List ℚ)
    (hlen : label.length = gradcam.length) (h255 : (255 : Int) ∈ label) :
    ∃ m, compute_overlap label gradcam = .ok m ∧
      ∀ cls : Int, m.lookup cls =
        if cls ∈ label ∧ cls ≠ 255 then
          some (classMean label (normalize gradcam) cls) else none := by
  refine ⟨((npUnique label).map
      (fun cls => (cls, classMass label (normalize gradcam) cls))).filter
      (fun e => e.1 ≠ 255), ?_, ?_⟩
  · unfold compute_overlap
    rw [if_pos (mem_npUnique.mpr h255)]
  · intro cls
    have hlen' : label.length = (normalize gradcam).length := by
      simpa [normalize] using hlen
    rw [lookup_overlap_map (fun c => classMass label (normalize gradcam) c)
      (nodup_npUnique label) cls]
    by_cases h : cls ∈ label ∧ cls ≠ 255
    · rw [if_pos ⟨mem_npUnique.mpr h.1, h.2⟩, if_pos h,
        classMass_eq_classMean hlen']
    · rw [if_neg (fun hc => h ⟨mem_npUnique.mp hc.1, hc.2⟩), if_neg h]

/-- Witness for C3: the synthetic pair `label = [0, 255, 1, 255]`,
`gradcam = [0, 4, 2, 4]`. -/
theorem compute_overlap_spec_witness :
    ([0, 255, 1, 255] : List Int).length = ([0, 4, 2, 4] : List ℚ).length ∧
    (255 : Int) ∈ ([0, 255, 1, 255] : List Int) ∧
    ∃ m, compute_overlap [0, 255, 1, 255] [0, 4, 2, 4] = .ok m ∧
      ∀ cls : Int, m.lookup cls =
        if cls ∈ ([0, 255, 1, 255] : List Int) ∧ cls ≠ 255 then
          some (classMean [0, 255, 1, 255] (normalize [0, 4, 2, 4]) cls)
        else none :=
  ⟨rfl, by decide,
    compute_overlap_spec [0, 255, 1, 255] [0, 4, 2, 4] rfl (by decide)⟩

/-- C4: when the ignore id 255 does not occur in the label map,
`compute_overlap` raises a `KeyError` at `cls_to_mass.pop(255)` instead of
returning a mapping. -/
theorem compute_overlap_no_ignore (label : List Int) (gradcam : List ℚ)
    (hlen : label.length = gradcam.length) (h255 : (255 : Int) ∉ label) :
    compute_overlap label gradcam = .error .keyError := by
  unfold compute_overlap
  rw [if_neg (fun h => h255 (mem_npUnique.mp h))]

/-- Witness for C4: a 2-pixel label map without 255. -/
theorem compute_overlap_no_ignore_witness :
    ([0, 1] : List Int).length = ([1/2, 3/4] : List ℚ).length ∧
    (255 : Int) ∉ ([0, 1] : List Int) ∧
    compute_overlap [0, 1] [1/2, 3/4] = .error .keyError :=
  ⟨rfl, by decide, compute_overlap_no_ignore [0, 1] [1/2, 3/4] rfl (by decide)⟩

theorem sample_length {α : Type} (k : Nat) (pop : List α) (st : Nat)
    (h : k ≤ pop.length) : (sample k pop st).1.length = k := by
  induction k generalizing pop st with
  | zero => rfl
  | succ k ih =>
    have hpos : 0 < pop.length := Nat.lt_of_lt_of_le (Nat.succ_pos k) h
    have hr : lcgNext st % pop.length < pop.length := Nat.mod_lt _ hpos
    rw [sample, List.get?_eq_get hr]
    have hlen : k ≤ (pop.eraseIdx (lcgNext st % pop.length)).length := by
      rw [List.length_eraseIdx, if_pos hr]
      omega
    simp [ih _ _ hlen]

theorem sample_subset {α : Type} (k : Nat) (pop : List α) (st : Nat) :
    ∀ x ∈ (sample k pop st).1, x ∈ pop := by
  induction k generalizing pop st with
  | zero => intro x hx; simp [sample] at hx
  | succ k ih =>
    intro x hx
    rw [sample] at hx
    rcases hget : pop.get? (lcgNext st % pop.length) with _ | y
    · rw [hget] at hx
      simp at hx
    · rw [hget] at hx
      rcases List.mem_cons.mp hx with rfl | hx'
      · exact List.get?_mem hget
      · exact (List.eraseIdx_sublist pop _).subset (ih _ _ x hx')

theorem get_not_mem_eraseIdx {α : Type} (l : List α) (r : Nat)
    (hr : r < l.length) (hnd : l.Nodup) : l.get ⟨r, hr⟩ ∉ l.eraseIdx r := by
  intro hmem
  rcases List.mem_eraseIdx_iff_getElem.mp hmem with ⟨i, hi, hir, hval⟩
  have : (⟨i, hi⟩ : Fin l.length) = ⟨r, hr⟩ := hnd.get_inj_iff.mp (by
    simpa [List.get_eq_getElem] using hval)
  exact hir (by simpa using congrArg Fin.val this)

theorem sample_nodup {α : Type} (k : Nat) (pop : List α) (st : Nat)
    (hnd : pop.Nodup) : (sample k pop st).1.Nodup := by
  induction k generalizing pop st with
  | zero => simp [sample]
  | succ k ih =>
    rw [sample]
    rcases hget : pop.get? (lcgNext st % pop.length) with _ | y
    · simp
    · have hr : lcgNext st % pop.length < pop.length := by
        by_contra hge
        rw [List.get?_eq_none.mpr (Nat.le_of_not_lt hge)] at hget
        exact Option.noConfusion hget
      have hy : y = pop.get ⟨_, hr⟩ := by
        rw [List.get?_eq_get hr] at hget
        exact (Option.some.injEq _ _ ▸ hget).symm
      have hnd' : (pop.eraseIdx (lcgNext st % pop.length)).Nodup :=
        (List.eraseIdx_sublist pop _).nodup hnd
      refine List.nodup_cons.mpr ⟨?_, ih _ _ hnd'⟩
      intro hy'
      exact get_not_mem_eraseIdx pop _ hr hnd
        (hy ▸ sample_subset k _ _ y hy')

theorem mem_keys_insertBin (m : List ((Int × Int) × List (Int × Int)))
    (b p : Int × Int) (k : Int × Int) :
    k ∈ (insertBin m b p).map Prod.fst ↔ k ∈ m.map Prod.fst ∨ k = b := by
  induction m with
  | nil => simp [insertBin]
  | cons e rest ih =>
    rcases e with ⟨c, l⟩
    by_cases hc : c = b
    · subst hc
      simp [insertBin]
      tauto
    · simp [insertBin, hc, ih]
      tauto

theorem insertBin_wf {bin_size : Int} {cand : List (Int × Int)}
    {m : List ((Int × Int) × List (Int × Int))} {b p : Int × Int}
    (hwf : BinsWF bin_size cand m) (hp : p ∈ cand)
    (hb : binOf p bin_size = b) : BinsWF bin_size cand (insertBin m b p) := by
  induction m with
  | nil =>
    refine ⟨by simp [insertBin], ?_⟩
    intro e he
    simp [insertBin] at he
    subst he
    refine ⟨by simp, ?_⟩
    intro q hq
    simp at hq
    subst hq
    exact ⟨hp, hb⟩
  | cons e rest ih =>
    rcases e with ⟨c, l⟩
    rcases hwf with ⟨hnd, hent⟩
    have hndrest : (rest.map Prod.fst).Nodup := (List.nodup_cons.mp (by simpa using hnd)).2
    have hcnot : c ∉ rest.map Prod.fst := (List.nodup_cons.mp (by simpa using hnd)).1
    by_cases hc : c = b
    · subst hc
      rw [insertBin, if_pos rfl]
      refine ⟨by simpa using hnd, ?_⟩
      intro f hf
      rcases List.mem_cons.mp hf with rfl | hf'
      · refine ⟨by simp, ?_⟩
        intro q hq
        rcases List.mem_append.mp hq with hq' | hq'
        · exact (hent (c, l) (List.mem_cons_self _ _)).2 q hq'
        · simp at hq'
          subst hq'
          exact ⟨hp, hb⟩
      · exact hent f (List.mem_cons_of_mem _ hf')
    · rw [insertBin, if_neg hc]
      have hwfrest : BinsWF bin_size cand rest :=
        ⟨hndrest, fun f hf => hent f (List.mem_cons_of_mem _ hf)⟩
      have hih := ih hwfrest
      refine ⟨?_, ?_⟩
      · rw [List.map_cons]
        refine List.nodup_cons.mpr ⟨?_, hih.1⟩
        rw [mem_keys_insertBin]
        rintro (hmem | rfl)
        · exact hcnot hmem
        · exact hc rfl
      · intro f hf
        rcases List.mem_cons.mp hf with rfl | hf'
        · exact hent (c, l) (List.mem_cons_self _ _)
        · exact hih.2 f hf'

theorem buildBins_wf_aux (bin_size : Int) (cand : List (Int × Int)) :
    ∀ (ps : List (Int × Int)) (m : List ((Int × Int) × List (Int × Int))),
      (∀ p ∈ ps, p ∈ cand) → BinsWF bin_size cand m →
      BinsWF bin_size cand
        (ps.foldl (fun acc p => insertBin acc (binOf p bin_size) p) m) := by
  intro ps
  induction ps with
  | nil => intro m _ hwf; exact hwf
  | cons p ps ih =>
    intro m hsub hwf
    rw [List.foldl_cons]
    exact ih _ (fun q hq => hsub q (List.mem_cons_of_mem _ hq))
      (insertBin_wf hwf (hsub p (List.mem_cons_self _ _)) rfl)

theorem buildBins_wf (pixels : List (Int × Int)) (bin_size : Int) :
    BinsWF bin_size pixels (buildBins pixels bin_size) :=
  buildBins_wf_aux bin_size pixels pixels [] (fun _ hp => hp)
    ⟨List.nodup_nil, fun e he => absurd he (List.not_mem_nil e)⟩

theorem buildBins_keys_aux (bin_size : Int) :
    ∀ (ps : List (Int × Int)) (m : List ((Int × Int) × List (Int × Int)))
      (k : Int × Int),
      (k ∈ (ps.foldl (fun acc p => insertBin acc (binOf p bin_size) p) m).map
          Prod.fst ↔
        k ∈ m.map Prod.fst ∨ k ∈ ps.map (fun p => binOf p bin_size)) := by
  intro ps
  induction ps with
  | nil => intro m k; simp
  | cons p ps ih =>
    intro m k
    rw [List.foldl_cons, ih, mem_keys_insertBin]
    simp
    tauto

theorem buildBins_keys (pixels : List (Int × Int)) (bin_size : Int)
    (k : Int × Int) :
    k ∈ (buildBins pixels bin_size).map Prod.fst ↔
      k ∈ pixels.map (fun p => binOf p bin_size) := by
  rw [buildBins, buildBins_keys_aux]
  simp

theorem buildBins_length (pixels : List (Int × Int)) (bin_size : Int) :
    (buildBins pixels bin_size).length =
      (pixels.map (fun p => binOf p bin_size)).toFinset.card := by
  have hnd : ((buildBins pixels bin_size).map Prod.fst).Nodup :=
    (buildBins_wf pixels bin_size).1
  have hset : ((buildBins pixels bin_size).map Prod.fst).toFinset =
      (pixels.map (fun p => binOf p bin_size)).toFinset := by
    ext k
    simp only [List.mem_toFinset]
    exact buildBins_keys pixels bin_size k
  calc (buildBins pixels bin_size).length
      = ((buildBins pixels bin_size).map Prod.fst).length :=
        (List.length_map _ _).symm
    _ = ((buildBins pixels bin_size).map Prod.fst).toFinset.card :=
        (List.toFinset_card_of_nodup hnd).symm
    _ = (pixels.map (fun p => binOf p bin_size)).toFinset.card := by rw [hset]

theorem pick_index_some (l : List (Int × Int)) (st : Nat) (h : l ≠ []) :
    ∃ x, l.get? ((sample 1 (List.range l.length) st).1.headD 0) = some x := by
  have hpos : 0 < l.length := List.length_pos.mpr h
  have hlen : (sample 1 (List.range l.length) st).1.length = 1 :=
    sample_length 1 _ st (by simpa using hpos)
  rcases List.length_eq_one.mp hlen with ⟨i, hi⟩
  have hmem : i ∈ List.range l.length := by
    refine sample_subset 1 _ st i ?_
    rw [hi]
    exact List.mem_singleton_self i
  have hilt : i < l.length := List.mem_range.mp hmem
  refine ⟨l.get ⟨i, hilt⟩, ?_⟩
  rw [hi]
  exact List.get?_eq_get hilt

theorem pickOnePerBin_forall₂ (ls : List (List (Int × Int))) (st : Nat)
    (h : ∀ l ∈ ls, l ≠ []) :
    List.Forall₂ (fun x l => x ∈ l) (pickOnePerBin ls st).1 ls := by
  induction ls generalizing st with
  | nil => exact List.Forall₂.nil
  | cons l ls ih =>
    rcases pick_index_some l st (h l (List.mem_cons_self _ _)) with ⟨x, hx⟩
    rw [pickOnePerBin, hx]
    exact List.Forall₂.cons (List.get?_mem hx)
      (ih _ (fun l' hl' => h l' (List.mem_cons_of_mem _ hl')))

theorem lookup_some_of_mem_keys {m : List ((Int × Int) × List (Int × Int))}
    {b : Int × Int} (h : b ∈ m.map Prod.fst) :
    ∃ l, m.lookup b = some l ∧ (b, l) ∈ m := by
  induction m with
  | nil => simp at h
  | cons e rest ih =>
    rcases e with ⟨c, l⟩
    by_cases hbc : b = c
    · subst hbc
      refine ⟨l, ?_, List.mem_cons_self _ _⟩
      simp [List.lookup]
    · have hbeq : (b == c) = false := by simpa using hbc
      have hrest : b ∈ rest.map Prod.fst := by
        rcases List.mem_map.mp h with ⟨f, hf, hfst⟩
        rcases List.mem_cons.mp hf with rfl | hf'
        · exact absurd hfst.symm hbc
        · exact List.mem_map.mpr ⟨f, hf', hfst⟩
      rcases ih hrest with ⟨l', hl', hmem⟩
      refine ⟨l', ?_, List.mem_cons_of_mem _ hmem⟩
      simp only [List.lookup, hbeq]
      exact hl'

theorem picks_map_binOf {bin_size : Int} {cand : List (Int × Int)}
    {m : List ((Int × Int) × List (Int × Int))} (hwf : BinsWF bin_size cand m) :
    ∀ {mm : List ((Int × Int) × List (Int × Int))} {picks : List (Int × Int)},
      (∀ e ∈ mm, e ∈ m) →
      List.Forall₂ (fun x e => x ∈ e.2) picks mm →
      picks.map (fun p => binOf p bin_size) = mm.map Prod.fst ∧
        ∀ p ∈ picks, p ∈ cand := by
  intro mm picks hsub hf
  induction hf with
  | nil => exact ⟨rfl, fun p hp => absurd hp (List.not_mem_nil p)⟩
  | cons hxe hf ih =>
    rename_i x e picks' mm'
    have hein : e ∈ m := hsub e (List.mem_cons_self _ _)
    have hx := (hwf.2 e hein).2 x hxe
    have ihres := ih (fun f hf' => hsub f (List.mem_cons_of_mem _ hf'))
    refine ⟨?_, ?_⟩
    · rw [List.map_cons, List.map_cons, ihres.1, hx.2]
    · intro p hp
      rcases List.mem_cons.mp hp with rfl | hp'
      · exact hx.1
      · exact ihres.2 p hp'

theorem picks_map_binOf_bins {bin_size : Int} {cand : List (Int × Int)}
    {m : List ((Int × Int) × List (Int × Int))} (hwf : BinsWF bin_size cand m) :
    ∀ {bins : List (Int × Int)} {picks : List (Int × Int)},
      (∀ b ∈ bins, b ∈ m.map Prod.fst) →
      List.Forall₂ (fun x b => x ∈ lookupBin m b) picks bins →
      picks.map (fun p => binOf p bin_size) = bins ∧ ∀ p ∈ picks, p ∈ cand := by
  intro bins picks hsub hf
  induction hf with
  | nil => exact ⟨rfl, fun p hp => absurd hp (List.not_mem_nil p)⟩
  | cons hxb hf ih =>
    rename_i x b picks' bins'
    rcases lookup_some_of_mem_keys (hsub b (List.mem_cons_self _ _)) with
      ⟨l, hl, hmem⟩
    have hxl : x ∈ l := by
      rw [lookupBin, hl] at hxb
      exact hxb
    have hx := (hwf.2 (b, l) hmem).2 x hxl
    have ihres := ih (fun c hc => hsub c (List.mem_cons_of_mem _ hc))
    refine ⟨?_, ?_⟩
    · rw [List.map_cons, ihres.1, hx.2]
    · intro p hp
      rcases List.mem_cons.mp hp with rfl | hp'
      · exact hx.1
      · exact ihres.2 p hp'

/-- C2: for a fixed seed `get_random_pixels` is deterministic (two calls on
identical inputs agree); its output size is `min n B` where `B` is the
number of distinct spatial bins occupied by the candidates; every returned
pixel is a candidate pixel; and the returned pixels occupy pairwise
distinct bins — exactly one pixel per chosen bin. -/
theorem get_random_pixels_spec (n : Nat) (pixels : List (Int × Int))
    (bin_size : Int) (seed : Nat) (hne : pixels ≠ []) (hbs : 0 < bin_size) :
    get_random_pixels n pixels bin_size seed =
      get_random_pixels n pixels bin_size seed ∧
    (get_random_pixels n pixels bin_size seed).length =
      min n ((pixels.map (fun p => binOf p bin_size)).toFinset.card) ∧
    (∀ p ∈ get_random_pixels n pixels bin_size seed, p ∈ pixels) ∧
    ((get_random_pixels n pixels bin_size seed).map
      (fun p => binOf p bin_size)).Nodup := by
  refine ⟨rfl, ?_, ?_, ?_⟩ <;>
  · have hwf := buildBins_wf pixels bin_size
    have hcard := buildBins_length pixels bin_size
    by_cases hcase : n ≥ (buildBins pixels bin_size).length
    · have hgrp : get_random_pixels n pixels bin_size seed =
          (pickOnePerBin ((buildBins pixels bin_size).map Prod.snd)
            (lcgNext seed)).1 := by
        rw [get_random_pixels, if_pos hcase]
      have hne_lists : ∀ l ∈ (buildBins pixels bin_size).map Prod.snd,
          l ≠ [] := by
        intro l hl
        rcases List.mem_map.mp hl with ⟨e, he, rfl⟩
        exact (hwf.2 e he).1
      have hf := pickOnePerBin_forall₂ _ (lcgNext seed) hne_lists
      have hf' : List.Forall₂ (fun x e => x ∈ e.2)
          (pickOnePerBin ((buildBins pixels bin_size).map Prod.snd)
            (lcgNext seed)).1
          (buildBins pixels bin_size) := List.forall₂_map_right_iff.mp hf
      have hres := picks_map_binOf hwf (fun _ he => he) hf'
      have hlen := hf.length_eq
      rw [List.length_map] at hlen
      first
      | (rw [hgrp, hlen]; omega)
      | (rw [hgrp]; exact hres.2)
      | (rw [hgrp, hres.1]; exact hwf.1)
    · have hnle : n ≤ ((buildBins pixels bin_size).map Prod.fst).length := by
        rw [List.length_map]
        omega
      have hgrp : get_random_pixels n pixels bin_size seed =
          (pickOnePerBin
            (((sample n ((buildBins pixels bin_size).map Prod.fst)
              (lcgNext seed)).1).map (lookupBin (buildBins pixels bin_size)))
            (sample n ((buildBins pixels bin_size).map Prod.fst)
              (lcgNext seed)).2).1 := by
        rw [get_random_pixels, if_neg hcase]
      have hbins_len := sample_length n
        ((buildBins pixels bin_size).map Prod.fst) (lcgNext seed) hnle
      have hbins_sub := sample_subset n
        ((buildBins pixels bin_size).map Prod.fst) (lcgNext seed)
      have hbins_nd := sample_nodup n
        ((buildBins pixels bin_size).map Prod.fst) (lcgNext seed) hwf.1
      have hne_lists : ∀ l ∈ ((sample n
          ((buildBins pixels bin_size).map Prod.fst) (lcgNext seed)).1).map
            (lookupBin (buildBins pixels bin_size)), l ≠ [] := by
        intro l hl
        rcases List.mem_map.mp hl with ⟨b, hb, rfl⟩
        rcases lookup_some_of_mem_keys (hbins_sub b hb) with ⟨l', hl', hmem⟩
        rw [lookupBin, hl']
        exact (hwf.2 (b, l') hmem).1
      have hf := pickOnePerBin_forall₂ _
        (sample n ((buildBins pixels bin_size).map Prod.fst) (lcgNext seed)).2
        hne_lists
      have hf' := List.forall₂_map_right_iff.mp hf
      have hres := picks_map_binOf_bins hwf hbins_sub hf'
      have hlen := hf.length_eq
      rw [List.length_map, hbins_len] at hlen
      first
      | (rw [hgrp, hlen]; omega)
      | (rw [hgrp]; exact hres.2)
      | (rw [hgrp, hres.1]; exact hbins_nd)

/-- Witness for C2: two candidates in distinct bins, `n = 1`,
`bin_size = 300`, `seed = 0`. -/
theorem get_random_pixels_spec_witness :
    ([((0 : Int), (0 : Int)), (400, 50)] : List (Int × Int)) ≠ [] ∧
    (0 : Int) < 300 ∧
    (get_random_pixels 1 [(0, 0), (400, 50)] 300 0 =
      get_random_pixels 1 [(0, 0), (400, 50)] 300 0 ∧
    (get_random_pixels 1 [(0, 0), (400, 50)] 300 0).length =
      min 1 ((([((0 : Int), (0 : Int)), (400, 50)] : List (Int × Int)).map
        (fun p => binOf p 300)).toFinset.card) ∧
    (∀ p ∈ get_random_pixels 1 [(0, 0), (400, 50)] 300 0,
      p ∈ ([((0 : Int), (0 : Int)), (400, 50)] : List (Int × Int))) ∧
    ((get_random_pixels 1 [(0, 0), (400, 50)] 300 0).map
      (fun p => binOf p 300)).Nodup) :=
  ⟨by decide, by decide,
    get_random_pixels_spec 1 [(0, 0), (400, 50)] 300 0 (by decide) (by decide)⟩

